import Mathlib

/-!
Shallow embedding of the Days Forward Coverage engine (`src/helpers/dfc_algo.py`).

Dates are modelled as natural numbers (any total-order encoding of calendar
dates; concrete examples use the `yyyymmdd` encoding, whose numeric order
agrees with calendar order on the dates involved).  Quantities and forecasted
sales are modelled as integers, matching the signed integer columns the
pandas implementation operates on.

The pandas dataframes become lists of records; `sort_values` becomes a
stable insertion sort (the source relies on an unspecified tie order, see
spec section 9; the embedding fixes the stable order); boolean masks become
`List.filter`.  The absent reference date (pandas `NaT`, which compares
false against every date) is modelled by `Option Nat` together with `geOpt`,
which returns `false` when the reference date is `none`.
-/

/-- One row of the forecast table. -/
structure ForecastRecord where
  product_id : String
  date : Nat
  forecasted_sales : Int
deriving DecidableEq

/-- One row of the inventory table. -/
structure InventoryBatch where
  product_id : String
  batch_id : String
  expiry_date : Nat
  quantity : Int
deriving DecidableEq

/-- One row of the coverage table produced by `calculate_dfc`.  The Python
code omits the `has_forecast` key on the normal path, which is modelled by
`none`. -/
structure CoverageResult where
  product_id : String
  days_forward_coverage : Nat
  total_inventory : Int
  has_forecast : Option Bool
deriving DecidableEq

/-- One row of the per-product time series produced by
`calculate_dfc_over_time`. -/
structure OverTimeRow where
  date : Nat
  days_forward_coverage : Nat
  total_inventory : Int
deriving DecidableEq

/-- Total quantity of a list of batches (`df[INVENTORY_INVENTORY].sum()`). -/
def sumQ (l : List InventoryBatch) : Int :=
  (l.map (fun b => b.quantity)).sum

/-- Insert `x` into `l` in front of the first element `y` with `r x y`. -/
def insertB (r : α → α → Bool) (x : α) : List α → List α
  | [] => [x]
  | y :: ys => if r x y then x :: y :: ys else y :: insertB r x ys

/-- Stable insertion sort, modelling `DataFrame.sort_values` (the source
leaves tie order unspecified; the embedding fixes the stable order, keeping
equal keys in input order). -/
def sortBy (r : α → α → Bool) : List α → List α
  | [] => []
  | x :: xs => insertB r x (sortBy r xs)

/-- `sort_values` by a single numeric key. -/
def sortByKey (k : α → Nat) : List α → List α :=
  sortBy (fun a b => k a ≤ k b)

/-- First-occurrence deduplication with an accumulator of already seen
elements, modelling pandas `Series.unique` / Python `set` iteration in a
deterministic first-appearance order. -/
def uniqueFirstAux [DecidableEq α] : List α → List α → List α
  | _, [] => []
  | seen, x :: xs =>
    if x ∈ seen then uniqueFirstAux seen xs
    else x :: uniqueFirstAux (x :: seen) xs

/-- Distinct elements of a list, keeping the first occurrence of each. -/
def uniqueFirst [DecidableEq α] (l : List α) : List α :=
  uniqueFirstAux [] l

/-- FIFO consumption loop of `_calculate_days_covered` (lines 70-80 of
`dfc_algo.py`): walk the expiry-sorted batches; a batch that can fulfil the
remaining demand is reduced by it and the loop breaks, otherwise the batch
is set to exactly `0` and the loop continues with the residual demand. -/
def depleteFIFO : List InventoryBatch → Int → List InventoryBatch
  | [], _ => []
  | b :: rest, demand =>
    if demand ≤ b.quantity then
      { b with quantity := b.quantity - demand } :: rest
    else
      { b with quantity := 0 } :: depleteFIFO rest (demand - b.quantity)

/-- Body of one iteration of the forecast loop in `_calculate_days_covered`
(lines 50-83): drop batches expiring strictly before the forecast date,
recompute the remaining total, and either deplete FIFO (day covered,
`some` of the new inventory) or stop (`none`, no depletion at all). -/
def dayStep (inv : List InventoryBatch) (d : Nat) (demand : Int) :
    Option (List InventoryBatch) :=
  let alive := inv.filter (fun b => d ≤ b.expiry_date)
  let remaining := sumQ alive
  if demand ≤ remaining then some (depleteFIFO alive demand) else none

/-- The forecast loop of `_calculate_days_covered`: count covered days until
the first shortfall. -/
def simLoop : List InventoryBatch → List ForecastRecord → Nat
  | _, [] => 0
  | inv, f :: fs =>
    match dayStep inv f.date f.forecasted_sales with
    | some inv2 => simLoop inv2 fs + 1
    | none => 0

/-- The successive values of `product_inventory` at the top of each iteration
of the forecast loop of `_calculate_days_covered` (including the state on
which the loop stops or finishes). -/
def simStates : List InventoryBatch → List ForecastRecord → List (List InventoryBatch)
  | inv, [] => [inv]
  | inv, f :: fs =>
    match dayStep inv f.date f.forecasted_sales with
    | some inv2 => inv :: simStates inv2 fs
    | none => [inv]

/-- Embedding of `DFCAlgo._calculate_days_covered(product_forecast,
product_inventory, start_date)`: optional start-date filtering, sorting of
both tables, the total-inventory snapshot, the empty-input short cut, and
the depletion simulation.  Returns `(days_covered, total_inventory)`. -/
def calculate_days_covered (pf : List ForecastRecord)
    (pb : List InventoryBatch) (start_date : Option Nat) : Nat × Int :=
  let pf1 := match start_date with
    | none => pf
    | some s => pf.filter (fun r => s ≤ r.date)
  let pb1 := match start_date with
    | none => pb
    | some s => pb.filter (fun b => s ≤ b.expiry_date)
  let pb2 := sortByKey (fun b => b.expiry_date) pb1
  let pf2 := sortByKey (fun r => r.date) pf1
  let total := sumQ pb2
  if pb2.isEmpty || pf2.isEmpty then (0, total)
  else (simLoop pb2 pf2, total)

/-- Comparison of a date against an optional reference date.  A missing
reference date behaves like pandas `NaT`: every comparison is `false`. -/
def geOpt (x : Nat) : Option Nat → Bool
  | some d => d ≤ x
  | none => false

/-- The reference date used by `calculate_dfc`: the provided `current_date`,
or else the minimum forecast date (`none` when the forecast is empty,
modelling `NaT`). -/
def refDate (f : List ForecastRecord) (current_date : Option Nat) : Option Nat :=
  match current_date with
  | some d => some d
  | none => (f.map (fun r => r.date)).min?

/-- The lexicographic `(product_id, date)` order used by
`sort_values([FORCAST_PRODUCT_ID, FORCAST_DATE])`. -/
def forecastLe (a b : ForecastRecord) : Bool :=
  match compare a.product_id b.product_id with
  | .lt => true
  | .eq => a.date ≤ b.date
  | .gt => false

/-- `future_forecast` of `calculate_dfc`: forecast records on or after the
reference date, sorted by `(product_id, date)`. -/
def futureForecast (f : List ForecastRecord) (c : Option Nat) :
    List ForecastRecord :=
  sortBy forecastLe (f.filter (fun r => geOpt r.date (refDate f c)))

/-- `valid_inventory` of `calculate_dfc`: batches whose expiry date is on or
after the reference date. -/
def validInventory (f : List ForecastRecord) (i : List InventoryBatch)
    (c : Option Nat) : List InventoryBatch :=
  i.filter (fun b => geOpt b.expiry_date (refDate f c))

/-- The per-product body of the loop in `calculate_dfc` (lines 139-175):
zero rows for a product with no future forecast or no valid inventory,
otherwise the result of `_calculate_days_covered`. -/
def rowFor (fut : List ForecastRecord) (val : List InventoryBatch)
    (pid : String) : CoverageResult :=
  let pf := fut.filter (fun r => r.product_id == pid)
  if pf.isEmpty then
    { product_id := pid, days_forward_coverage := 0, total_inventory := 0,
      has_forecast := some false }
  else
    let pb := val.filter (fun b => b.product_id == pid)
    if pb.isEmpty then
      { product_id := pid, days_forward_coverage := 0, total_inventory := 0,
        has_forecast := some true }
    else
      { product_id := pid,
        days_forward_coverage := (calculate_days_covered pf pb none).1,
        total_inventory := (calculate_days_covered pf pb none).2,
        has_forecast := none }

/-- Embedding of `DFCAlgo.calculate_dfc(forecast_df, inventory_df,
current_date)`: one `CoverageResult` per product id occurring in the
filtered forecast or the filtered inventory.  Python iterates a `set` in
unspecified order; the embedding fixes first-appearance order (the set and
content of rows is what the spec constrains, not their order). -/
def calculate_dfc (f : List ForecastRecord) (i : List InventoryBatch)
    (current_date : Option Nat) : List CoverageResult :=
  let fut := futureForecast f current_date
  let val := validInventory f i current_date
  let prods := uniqueFirst (fut.map (fun r => r.product_id) ++
    val.map (fun b => b.product_id))
  prods.map (rowFor fut val)

/-- Embedding of `DFCAlgo.calculate_dfc_over_time(forecast_df, inventory_df,
product_id)`: empty result when the product is absent from either table,
otherwise one row per distinct forecast date, re-running
`_calculate_days_covered` anchored at that date. -/
def calculate_dfc_over_time (f : List ForecastRecord)
    (i : List InventoryBatch) (pid : String) : List OverTimeRow :=
  let pf := f.filter (fun r => r.product_id == pid)
  let pb := i.filter (fun b => b.product_id == pid)
  if pf.isEmpty || pb.isEmpty then []
  else
    let pfs := sortByKey (fun r => r.date) pf
    let dates := uniqueFirst (pfs.map (fun r => r.date))
    dates.map (fun d =>
      { date := d,
        days_forward_coverage := (calculate_days_covered pfs pb (some d)).1,
        total_inventory := (calculate_days_covered pfs pb (some d)).2 })

/-! ### Specification-side definitions

Independent renderings of the spec's wording (section 4.1.1 and the glossary),
used to state the refinement claim about the depletion simulation. -/

/-- The spec's expiry rule: remove the batches whose expiry date is
*strictly before* the date under evaluation. -/
def specRemoveExpired (inv : List InventoryBatch) (d : Nat) :
    List InventoryBatch :=
  inv.filter (fun b => ¬ (b.expiry_date < d))

/-- The spec's FIFO depletion: walk batches in ascending expiry order, each
batch giving up the smaller of its quantity and the still unabsorbed demand,
until the demand is fully absorbed. -/
def specFIFODeplete : List InventoryBatch → Int → List InventoryBatch
  | [], _ => []
  | b :: rest, q =>
    let taken := min b.quantity q
    { b with quantity := b.quantity - taken } :: specFIFODeplete rest (q - taken)

/-- The spec's notion that the first `k` forecast records (in date order) are
all covered: for each record in turn, after removing batches expiring
strictly before its date and after FIFO depletion by the earlier records,
the remaining total quantity is at least its forecasted sales. -/
def specCoversFirst : List InventoryBatch → List ForecastRecord → Nat → Prop
  | _, _, 0 => True
  | _, [], _ + 1 => False
  | inv, f :: fs, k + 1 =>
    let alive := specRemoveExpired inv f.date
    f.forecasted_sales ≤ sumQ alive ∧
      specCoversFirst (specFIFODeplete alive f.forecasted_sales) fs k

/-- Total quantity of the batches of `inv` that survive date `d` — the
aggregate view of an inventory state by which the simulation is compared
across inputs. -/
def avail (inv : List InventoryBatch) (d : Nat) : Int :=
  sumQ (inv.filter (fun b => d ≤ b.expiry_date))

/-- Batches sorted ascending by expiry date. -/
def SortedByExpiry (inv : List InventoryBatch) : Prop :=
  List.Pairwise (fun a b => a.expiry_date ≤ b.expiry_date) inv

/-- All quantities of an inventory list are non-negative (spec section 3:
quantity is a non-negative number). -/
def NonnegQ (inv : List InventoryBatch) : Prop :=
  ∀ b ∈ inv, 0 ≤ b.quantity

/-- All forecasted sales are non-negative (spec section 3: forecasted_sales
is a non-negative number). -/
def NonnegS (fs : List ForecastRecord) : Prop :=
  ∀ r ∈ fs, 0 ≤ r.forecasted_sales

/-- `total_inventory` is non-increasing along a time-series result. -/
def TotalNonincreasing (l : List OverTimeRow) : Prop :=
  List.Pairwise (fun a b => b.total_inventory ≤ a.total_inventory) l

/-- Scenario B forecast: 5 units per day on 2024-01-01..2024-01-03. -/
def scenarioBForecast : List ForecastRecord :=
  [⟨"P1", 20240101, 5⟩, ⟨"P1", 20240102, 5⟩, ⟨"P1", 20240103, 5⟩]

/-- Scenario B inventory: one batch of 12 units expiring 2024-01-02. -/
def scenarioBInventory : List InventoryBatch :=
  [⟨"P1", "B1", 20240102, 12⟩]

/-- The dates of a time-series result are strictly ascending. -/
def DatesStrictAscending (l : List OverTimeRow) : Prop :=
  List.Pairwise (fun a b => a.date < b.date) l

open List

/-! ### Basic lemmas about the sorting and deduplication helpers -/

theorem insertB_perm (r : α → α → Bool) (x : α) (l : List α) :
    insertB r x l ~ x :: l := by
  induction l with
  | nil => exact Perm.refl _
  | cons y ys ih =>
    by_cases h : r x y
    · simp [insertB, h]
    · simp only [insertB, h, if_neg, Bool.false_eq_true, not_false_iff, if_false]
      exact (ih.cons y).trans (Perm.swap x y ys)

theorem sortBy_perm (r : α → α → Bool) (l : List α) : sortBy r l ~ l := by
  induction l with
  | nil => exact Perm.refl _
  | cons x xs ih => exact (insertB_perm r x (sortBy r xs)).trans (ih.cons x)

theorem sortByKey_perm (k : α → Nat) (l : List α) : sortByKey k l ~ l :=
  sortBy_perm _ l

theorem pairwise_insertB (k : α → Nat) (x : α) (l : List α)
    (h : List.Pairwise (fun a b => k a ≤ k b) l) :
    List.Pairwise (fun a b => k a ≤ k b)
      (insertB (fun a b => k a ≤ k b) x l) := by
  induction l with
  | nil => simp [insertB]
  | cons y ys ih =>
    rcases List.pairwise_cons.1 h with ⟨hy, hys⟩
    by_cases hxy : k x ≤ k y
    · simp only [insertB]
      rw [if_pos (decide_eq_true hxy)]
      refine List.pairwise_cons.2 ⟨?_, h⟩
      intro z hz
      rcases List.mem_cons.1 hz with rfl | hz2
      · exact hxy
      · exact le_trans hxy (hy _ hz2)
    · have hyx : k y ≤ k x := le_of_not_le hxy
      simp only [insertB]
      rw [if_neg (by simp [hxy])]
      refine List.pairwise_cons.2 ⟨?_, ih hys⟩
      intro z hz
      have hz2 := (insertB_perm (fun a b => decide (k a ≤ k b)) x ys).mem_iff.1 hz
      rcases List.mem_cons.1 hz2 with rfl | hz3
      · exact hyx
      · exact hy _ hz3

theorem pairwise_sortByKey (k : α → Nat) (l : List α) :
    List.Pairwise (fun a b => k a ≤ k b) (sortByKey k l) := by
  induction l with
  | nil => exact List.Pairwise.nil
  | cons x xs ih => exact pairwise_insertB k x _ ih

theorem mem_uniqueFirstAux [DecidableEq α] {x : α} :
    ∀ (seen l : List α), x ∈ uniqueFirstAux seen l ↔ (x ∈ l ∧ x ∉ seen) := by
  intro seen l
  induction l generalizing seen with
  | nil => simp [uniqueFirstAux]
  | cons y ys ih =>
    simp only [uniqueFirstAux]
    by_cases hy : y ∈ seen
    · simp only [hy, if_pos, ih, List.mem_cons]
      constructor
      · rintro ⟨h1, h2⟩
        exact ⟨Or.inr h1, h2⟩
      · rintro ⟨rfl | h1, h2⟩
        · exact absurd hy h2
        · exact ⟨h1, h2⟩
    · simp only [hy, if_neg, not_false_iff, List.mem_cons, ih]
      constructor
      · rintro (rfl | ⟨h1, h2⟩)
        · exact ⟨Or.inl rfl, hy⟩
        · refine ⟨Or.inr h1, ?_⟩
          intro hx
          exact h2 (Or.inr hx)
      · rintro ⟨rfl | h1, h2⟩
        · exact Or.inl rfl
        · by_cases hxy : x = y
          · exact Or.inl hxy
          · refine Or.inr ⟨h1, ?_⟩
            simp only [List.mem_cons, not_or]
            exact ⟨hxy, h2⟩

theorem mem_uniqueFirst [DecidableEq α] {x : α} (l : List α) :
    x ∈ uniqueFirst l ↔ x ∈ l := by
  simp [uniqueFirst, mem_uniqueFirstAux]

theorem uniqueFirstAux_sublist [DecidableEq α] :
    ∀ (seen l : List α), uniqueFirstAux seen l <+ l := by
  intro seen l
  induction l generalizing seen with
  | nil => exact Sublist.refl _
  | cons y ys ih =>
    simp only [uniqueFirstAux]
    by_cases hy : y ∈ seen
    · simp only [hy, if_pos]
      exact (ih seen).cons y
    · simp only [hy, if_neg, not_false_iff]
      exact (ih (y :: seen)).cons₂ y

theorem uniqueFirst_sublist [DecidableEq α] (l : List α) : uniqueFirst l <+ l :=
  uniqueFirstAux_sublist [] l

theorem uniqueFirstAux_nodup [DecidableEq α] :
    ∀ (seen l : List α), (uniqueFirstAux seen l).Nodup := by
  intro seen l
  induction l generalizing seen with
  | nil => exact List.Pairwise.nil
  | cons y ys ih =>
    simp only [uniqueFirstAux]
    by_cases hy : y ∈ seen
    · simp only [hy, if_pos]
      exact ih seen
    · simp only [hy, if_neg, not_false_iff, List.nodup_cons]
      refine ⟨?_, ih (y :: seen)⟩
      intro hmem
      exact ((mem_uniqueFirstAux _ _).1 hmem).2 (List.mem_cons_self _ _)

theorem uniqueFirst_nodup [DecidableEq α] (l : List α) : (uniqueFirst l).Nodup :=
  uniqueFirstAux_nodup [] l

/-! ### Lemmas about quantities, filtering and FIFO depletion -/

theorem sumQ_perm {l1 l2 : List InventoryBatch} (h : l1 ~ l2) :
    sumQ l1 = sumQ l2 :=
  (h.map _).sum_eq

theorem sumQ_nonneg {l : List InventoryBatch} (h : NonnegQ l) : 0 ≤ sumQ l := by
  apply List.sum_nonneg
  intro x hx
  rcases List.mem_map.1 hx with ⟨b, hb, rfl⟩
  exact h b hb

theorem sumQ_sublist_le {l1 l2 : List InventoryBatch} (h : l1 <+ l2)
    (h2 : NonnegQ l2) : sumQ l1 ≤ sumQ l2 := by
  apply List.Sublist.sum_le_sum (h.map _)
  intro a ha
  rcases List.mem_map.1 ha with ⟨b, hb, rfl⟩
  exact h2 b hb

theorem nonnegQ_filter {l : List InventoryBatch} (p : InventoryBatch → Bool)
    (h : NonnegQ l) : NonnegQ (l.filter p) := by
  intro b hb
  exact h b (List.mem_filter.1 hb).1

theorem nonnegQ_perm {l1 l2 : List InventoryBatch} (hp : l1 ~ l2)
    (h : NonnegQ l1) : NonnegQ l2 := by
  intro b hb
  exact h b (hp.mem_iff.2 hb)

theorem depleteFIFO_nonneg :
    ∀ (l : List InventoryBatch) (q : Int), 0 ≤ q → NonnegQ l →
      NonnegQ (depleteFIFO l q) := by
  intro l
  induction l with
  | nil =>
    intro q _ _ b hb
    simp [depleteFIFO] at hb
  | cons x rest ih =>
    intro q h0 hl b hb
    have hx : 0 ≤ x.quantity := hl x (List.mem_cons_self _ _)
    have hrest : NonnegQ rest := fun c hc => hl c (List.mem_cons_of_mem _ hc)
    by_cases hc : q ≤ x.quantity
    · rw [depleteFIFO, if_pos hc] at hb
      rcases List.mem_cons.1 hb with rfl | hb2
      · simpa using sub_nonneg.2 hc
      · exact hrest b hb2
    · rw [depleteFIFO, if_neg hc] at hb
      rcases List.mem_cons.1 hb with rfl | hb2
      · simp
      · exact ih (q - x.quantity) (by omega) hrest b hb2

theorem depleteFIFO_map_expiry :
    ∀ (l : List InventoryBatch) (q : Int),
      (depleteFIFO l q).map (fun b => b.expiry_date) =
        l.map (fun b => b.expiry_date) := by
  intro l
  induction l with
  | nil => intro q; simp [depleteFIFO]
  | cons x rest ih =>
    intro q
    by_cases hc : q ≤ x.quantity
    · rw [depleteFIFO, if_pos hc]
      simp
    · rw [depleteFIFO, if_neg hc]
      simp [ih]

theorem depleteFIFO_sumQ :
    ∀ (l : List InventoryBatch) (q : Int), 0 ≤ q → q ≤ sumQ l →
      sumQ (depleteFIFO l q) = sumQ l - q := by
  intro l
  induction l with
  | nil =>
    intro q h0 hle
    simp only [sumQ, List.map_nil, List.sum_nil] at hle ⊢
    simp [depleteFIFO, sumQ]
    omega
  | cons x rest ih =>
    intro q h0 hle
    simp only [sumQ, List.map_cons, List.sum_cons] at hle
    by_cases hc : q ≤ x.quantity
    · rw [depleteFIFO, if_pos hc]
      simp only [sumQ, List.map_cons, List.sum_cons]
      ring
    · rw [depleteFIFO, if_neg hc]
      simp only [sumQ, List.map_cons, List.sum_cons]
      have := ih (q - x.quantity) (by omega) (by simp only [sumQ]; omega)
      simp only [sumQ] at this
      rw [this]
      ring

theorem depleteFIFO_forall₂ :
    ∀ (l : List InventoryBatch) (q : Int), 0 ≤ q → NonnegQ l →
      List.Forall₂ (fun b b' : InventoryBatch =>
        b'.product_id = b.product_id ∧ b'.batch_id = b.batch_id ∧
        b'.expiry_date = b.expiry_date ∧
        0 ≤ b'.quantity ∧ b'.quantity ≤ b.quantity) l (depleteFIFO l q) := by
  intro l
  induction l with
  | nil =>
    intro q _ _
    exact List.Forall₂.nil
  | cons x rest ih =>
    intro q h0 hl
    have hx : 0 ≤ x.quantity := hl x (List.mem_cons_self _ _)
    have hrest : NonnegQ rest := fun c hc => hl c (List.mem_cons_of_mem _ hc)
    by_cases hc : q ≤ x.quantity
    · rw [depleteFIFO, if_pos hc]
      refine List.Forall₂.cons ?_ ?_
      · exact ⟨rfl, rfl, rfl, by show (0:Int) ≤ x.quantity - q; omega,
          by show x.quantity - q ≤ x.quantity; omega⟩
      · exact List.forall₂_same.2 (fun b hb =>
          ⟨rfl, rfl, rfl, hrest b hb, le_refl _⟩)
    · rw [depleteFIFO, if_neg hc]
      exact List.Forall₂.cons ⟨rfl, rfl, rfl, le_refl _, hx⟩
        (ih (q - x.quantity) (by omega) hrest)

/-! ### The aggregate view `avail` of an inventory state -/

theorem avail_def (inv : List InventoryBatch) (d : Nat) :
    avail inv d = sumQ (inv.filter (fun b => d ≤ b.expiry_date)) := rfl

theorem avail_cons (x : InventoryBatch) (l : List InventoryBatch) (d : Nat) :
    avail (x :: l) d =
      (if d ≤ x.expiry_date then x.quantity else 0) + avail l d := by
  by_cases h : d ≤ x.expiry_date <;>
    simp [avail, sumQ, List.filter_cons, h]

theorem avail_of_all {l : List InventoryBatch} {d : Nat}
    (h : ∀ x ∈ l, d ≤ x.expiry_date) : avail l d = sumQ l := by
  unfold avail
  rw [List.filter_eq_self.2 (fun a ha => decide_eq_true (h a ha))]

theorem avail_le_sumQ {l : List InventoryBatch} (hq : NonnegQ l) (d : Nat) :
    avail l d ≤ sumQ l :=
  sumQ_sublist_le (List.filter_sublist _) hq

theorem avail_nonneg {l : List InventoryBatch} (hq : NonnegQ l) (d : Nat) :
    0 ≤ avail l d :=
  sumQ_nonneg (nonnegQ_filter _ hq)

theorem avail_filter (l : List InventoryBatch) (t d : Nat) :
    avail (l.filter (fun b => t ≤ b.expiry_date)) d = avail l (max d t) := by
  unfold avail
  rw [List.filter_filter]
  congr 1
  apply List.filter_congr
  intro b _
  by_cases h1 : d ≤ b.expiry_date <;> by_cases h2 : t ≤ b.expiry_date <;>
    simp [h1, h2, Nat.max_le]

theorem avail_perm {l1 l2 : List InventoryBatch} (h : l1 ~ l2) (d : Nat) :
    avail l1 d = avail l2 d :=
  sumQ_perm (h.filter _)

theorem avail_sublist {l1 l2 : List InventoryBatch} (h : l1 <+ l2)
    (hq : NonnegQ l2) (d : Nat) : avail l1 d ≤ avail l2 d :=
  sumQ_sublist_le (h.filter _) (nonnegQ_filter _ hq)

/-- Sortedness transfers along the expiry-preserving depletion. -/
theorem sortedByExpiry_iff_map (l : List InventoryBatch) :
    SortedByExpiry l ↔
      List.Pairwise (fun a b => a ≤ b) (l.map (fun b => b.expiry_date)) := by
  unfold SortedByExpiry
  rw [List.pairwise_map]

theorem sortedByExpiry_depleteFIFO {l : List InventoryBatch} (q : Int)
    (h : SortedByExpiry l) : SortedByExpiry (depleteFIFO l q) := by
  rw [sortedByExpiry_iff_map] at h ⊢
  rwa [depleteFIFO_map_expiry]

theorem sortedByExpiry_filter {l : List InventoryBatch}
    (p : InventoryBatch → Bool) (h : SortedByExpiry l) :
    SortedByExpiry (l.filter p) :=
  List.Pairwise.sublist (List.filter_sublist _) h

theorem sortedByExpiry_sortByKey (l : List InventoryBatch) :
    SortedByExpiry (sortByKey (fun b => b.expiry_date) l) :=
  pairwise_sortByKey _ l

/-- After FIFO depletion of a sorted non-negative inventory by a feasible
demand `q`, the quantity surviving any date `d` is the old surviving
quantity, capped by what is left in total.  This is the aggregate content of
earliest-expiry-first consumption. -/
theorem avail_depleteFIFO :
    ∀ (l : List InventoryBatch) (q : Int) (d : Nat), SortedByExpiry l →
      NonnegQ l → 0 ≤ q → q ≤ sumQ l →
      avail (depleteFIFO l q) d = min (avail l d) (sumQ l - q) := by
  intro l
  induction l with
  | nil =>
    intro q d _ _ h0 hle
    simp only [sumQ, List.map_nil, List.sum_nil] at hle
    have hq0 : q = 0 := le_antisymm hle h0
    simp [depleteFIFO, avail, sumQ, hq0]
  | cons x rest ih =>
    intro q d hs hq h0 hle
    rcases List.pairwise_cons.1 hs with ⟨hx_le, hs_rest⟩
    have hx : 0 ≤ x.quantity := hq x (List.mem_cons_self _ _)
    have hq_rest : NonnegQ rest := fun c hc => hq c (List.mem_cons_of_mem _ hc)
    have hsum : sumQ (x :: rest) = x.quantity + sumQ rest := by
      simp [sumQ]
    by_cases hc : q ≤ x.quantity
    · rw [depleteFIFO, if_pos hc]
      by_cases hd : d ≤ x.expiry_date
      · have hall : ∀ c ∈ rest, d ≤ c.expiry_date :=
          fun c hcm => le_trans hd (hx_le c hcm)
        rw [avail_cons, avail_cons, if_pos hd, if_pos hd, avail_of_all hall,
          hsum]
        show x.quantity - q + sumQ rest = min (x.quantity + sumQ rest)
          (x.quantity + sumQ rest - q)
        omega
      · rw [avail_cons, avail_cons, if_neg hd, if_neg hd, hsum]
        have h1 : avail rest d ≤ sumQ rest := avail_le_sumQ hq_rest d
        omega
    · rw [depleteFIFO, if_neg hc]
      have hle2 : q - x.quantity ≤ sumQ rest := by
        rw [hsum] at hle; omega
      have ihr := ih (q - x.quantity) d hs_rest hq_rest (by omega) hle2
      by_cases hd : d ≤ x.expiry_date
      · have hall : ∀ c ∈ rest, d ≤ c.expiry_date :=
          fun c hcm => le_trans hd (hx_le c hcm)
        rw [avail_cons, avail_cons, if_pos hd, if_pos hd, ihr,
          avail_of_all hall, hsum]
        show 0 + min (sumQ rest) (sumQ rest - (q - x.quantity)) =
          min (x.quantity + sumQ rest) (x.quantity + sumQ rest - q)
        omega
      · rw [avail_cons, avail_cons, if_neg hd, if_neg hd, ihr, hsum]
        have h1 : avail rest d ≤ sumQ rest := avail_le_sumQ hq_rest d
        omega

/-! ### Monotonicity of the simulation in the inventory -/

theorem dayStep_eq (inv : List InventoryBatch) (d : Nat) (q : Int) :
    dayStep inv d q =
      if q ≤ avail inv d then
        some (depleteFIFO (inv.filter (fun b => d ≤ b.expiry_date)) q)
      else none := rfl

theorem nonnegS_filter {l : List ForecastRecord} (p : ForecastRecord → Bool)
    (h : NonnegS l) : NonnegS (l.filter p) := by
  intro r hr
  exact h r (List.mem_filter.1 hr).1

theorem nonnegS_perm {l1 l2 : List ForecastRecord} (hp : l1 ~ l2)
    (h : NonnegS l1) : NonnegS l2 := by
  intro r hr
  exact h r (hp.mem_iff.2 hr)

/-- An inventory that survives every date at most as well as another yields
at most as many covered days, for any forecast with non-negative demands. -/
theorem simLoop_mono :
    ∀ (fs : List ForecastRecord) (inv1 inv2 : List InventoryBatch),
      SortedByExpiry inv1 → SortedByExpiry inv2 → NonnegQ inv1 →
      NonnegQ inv2 → NonnegS fs → (∀ d, avail inv1 d ≤ avail inv2 d) →
      simLoop inv1 fs ≤ simLoop inv2 fs := by
  intro fs
  induction fs with
  | nil =>
    intro inv1 inv2 _ _ _ _ _ _
    exact le_refl 0
  | cons f fs ih =>
    intro inv1 inv2 hs1 hs2 hq1 hq2 hns hdom
    have h0 : 0 ≤ f.forecasted_sales := hns f (List.mem_cons_self _ _)
    have hns2 : NonnegS fs := fun r hr => hns r (List.mem_cons_of_mem _ hr)
    by_cases c1 : f.forecasted_sales ≤ avail inv1 f.date
    · have c2 : f.forecasted_sales ≤ avail inv2 f.date :=
        le_trans c1 (hdom f.date)
      have e1 : simLoop inv1 (f :: fs) =
          simLoop (depleteFIFO (inv1.filter (fun b => f.date ≤ b.expiry_date))
            f.forecasted_sales) fs + 1 := by
        rw [simLoop, dayStep_eq, if_pos c1]
      have e2 : simLoop inv2 (f :: fs) =
          simLoop (depleteFIFO (inv2.filter (fun b => f.date ≤ b.expiry_date))
            f.forecasted_sales) fs + 1 := by
        rw [simLoop, dayStep_eq, if_pos c2]
      rw [e1, e2]
      refine Nat.succ_le_succ (ih _ _ ?_ ?_ ?_ ?_ hns2 ?_)
      · exact sortedByExpiry_depleteFIFO _ (sortedByExpiry_filter _ hs1)
      · exact sortedByExpiry_depleteFIFO _ (sortedByExpiry_filter _ hs2)
      · exact depleteFIFO_nonneg _ _ h0 (nonnegQ_filter _ hq1)
      · exact depleteFIFO_nonneg _ _ h0 (nonnegQ_filter _ hq2)
      · intro d
        have a1 := avail_depleteFIFO
          (inv1.filter (fun b => f.date ≤ b.expiry_date)) f.forecasted_sales d
          (sortedByExpiry_filter _ hs1) (nonnegQ_filter _ hq1) h0 c1
        have a2 := avail_depleteFIFO
          (inv2.filter (fun b => f.date ≤ b.expiry_date)) f.forecasted_sales d
          (sortedByExpiry_filter _ hs2) (nonnegQ_filter _ hq2) h0 c2
        rw [a1, a2, avail_filter, avail_filter]
        have hd1 : avail inv1 (max d f.date) ≤ avail inv2 (max d f.date) :=
          hdom _
        have hd2 : sumQ (inv1.filter (fun b => f.date ≤ b.expiry_date)) -
            f.forecasted_sales ≤
            sumQ (inv2.filter (fun b => f.date ≤ b.expiry_date)) -
            f.forecasted_sales :=
          sub_le_sub_right (hdom f.date) _
        exact min_le_min hd1 hd2
    · have e1 : simLoop inv1 (f :: fs) = 0 := by
        rw [simLoop, dayStep_eq, if_neg c1]
      rw [e1]
      exact Nat.zero_le _

theorem simLoop_sort_sublist (pfx : List ForecastRecord)
    {pbx pby : List InventoryBatch} (hsub : pbx <+ pby) (hq : NonnegQ pby)
    (hs : NonnegS pfx) :
    simLoop (sortByKey (fun b => b.expiry_date) pbx) pfx ≤
      simLoop (sortByKey (fun b => b.expiry_date) pby) pfx := by
  have hqx : NonnegQ pbx := fun c hc => hq c (hsub.subset hc)
  apply simLoop_mono
  · exact sortedByExpiry_sortByKey _
  · exact sortedByExpiry_sortByKey _
  · exact nonnegQ_perm (sortByKey_perm _ _).symm hqx
  · exact nonnegQ_perm (sortByKey_perm _ _).symm hq
  · exact hs
  · intro d
    rw [avail_perm (sortByKey_perm _ _) d, avail_perm (sortByKey_perm _ _) d]
    exact avail_sublist hsub hq d

theorem calc_core_mono (pfx : List ForecastRecord)
    {pbx pby : List InventoryBatch} (hsub : pbx <+ pby) (hq : NonnegQ pby)
    (hs : NonnegS pfx) :
    (if (sortByKey (fun b : InventoryBatch => b.expiry_date) pbx).isEmpty ||
        (sortByKey (fun r : ForecastRecord => r.date) pfx).isEmpty then
       ((0 : Nat), sumQ (sortByKey (fun b : InventoryBatch => b.expiry_date) pbx))
     else (simLoop (sortByKey (fun b : InventoryBatch => b.expiry_date) pbx)
         (sortByKey (fun r : ForecastRecord => r.date) pfx),
       sumQ (sortByKey (fun b : InventoryBatch => b.expiry_date) pbx))).1 ≤
    (if (sortByKey (fun b : InventoryBatch => b.expiry_date) pby).isEmpty ||
        (sortByKey (fun r : ForecastRecord => r.date) pfx).isEmpty then
       ((0 : Nat), sumQ (sortByKey (fun b : InventoryBatch => b.expiry_date) pby))
     else (simLoop (sortByKey (fun b : InventoryBatch => b.expiry_date) pby)
         (sortByKey (fun r : ForecastRecord => r.date) pfx),
       sumQ (sortByKey (fun b : InventoryBatch => b.expiry_date) pby))).1 := by
  by_cases hA : ((sortByKey (fun b : InventoryBatch => b.expiry_date) pbx).isEmpty ||
      (sortByKey (fun r : ForecastRecord => r.date) pfx).isEmpty) = true
  · rw [if_pos hA]
    exact Nat.zero_le _
  · simp only [Bool.or_eq_true, not_or, List.isEmpty_iff] at hA
    have hBne : sortByKey (fun b : InventoryBatch => b.expiry_date) pby ≠ [] := by
      intro hnil
      have hp := (sortByKey_perm (fun b : InventoryBatch => b.expiry_date) pby).symm
      rw [hnil] at hp
      have hpby : pby = [] := hp.eq_nil
      have hpbx : pbx = [] := List.sublist_nil.1 (hpby ▸ hsub)
      exact hA.1 (by simp [hpbx, sortByKey, sortBy])
    rw [if_neg (by simp [List.isEmpty_iff, hA.1, hA.2, hBne] : ¬ _),
      if_neg (by simp [List.isEmpty_iff, hBne, hA.2] : ¬ _)]
    exact simLoop_sort_sublist (sortByKey (fun r => r.date) pfx) hsub hq
      (nonnegS_perm (sortByKey_perm _ _).symm hs)

theorem calculate_days_covered_inventory_mono (pf : List ForecastRecord)
    {pbx pby : List InventoryBatch} (hsub : pbx <+ pby) (hq : NonnegQ pby)
    (hs : NonnegS pf) (start_date : Option Nat) :
    (calculate_days_covered pf pbx start_date).1 ≤
      (calculate_days_covered pf pby start_date).1 := by
  cases start_date with
  | none => exact calc_core_mono pf hsub hq hs
  | some s =>
    exact calc_core_mono (pf.filter (fun r => s ≤ r.date))
      (hsub.filter _) (nonnegQ_filter _ hq) (nonnegS_filter _ hs)

/-- C6: for every forecast, every inventory and every batch in it, the days
forward coverage computed by `_calculate_days_covered` from the inventory
with that batch removed is at most the coverage computed from the full
inventory (inputs well-formed per the data model: non-negative quantities
and non-negative forecasted sales). -/
theorem dfc_remove_batch_never_increases (pf : List ForecastRecord)
    (pb : List InventoryBatch) (start_date : Option Nat) (b : InventoryBatch)
    (hb : b ∈ pb) (hq : NonnegQ pb) (hs : NonnegS pf) :
    (calculate_days_covered pf (pb.erase b) start_date).1 ≤
      (calculate_days_covered pf pb start_date).1 :=
  calculate_days_covered_inventory_mono pf (List.erase_sublist b pb) hq hs
    start_date

/-- Witness for C6 at a concrete input: dropping the batch of 7 units cannot
increase the coverage of a one-day forecast of 5 units. -/
theorem dfc_remove_batch_never_increases_witness :
    (calculate_days_covered [⟨"A", 1, 5⟩]
        (([⟨"A", "B1", 2, 7⟩, ⟨"A", "B2", 3, 4⟩] :
          List InventoryBatch).erase ⟨"A", "B1", 2, 7⟩) none).1 ≤
      (calculate_days_covered [⟨"A", 1, 5⟩]
        [⟨"A", "B1", 2, 7⟩, ⟨"A", "B2", 3, 4⟩] none).1 :=
  dfc_remove_batch_never_increases [⟨"A", 1, 5⟩]
    [⟨"A", "B1", 2, 7⟩, ⟨"A", "B2", 3, 4⟩] none ⟨"A", "B1", 2, 7⟩
    (by decide) (by simp only [NonnegQ]; decide) (by simp only [NonnegS]; decide)

/-! ### Non-negativity along the simulation -/

theorem dayStep_some_nonneg {inv inv2 : List InventoryBatch} {d : Nat}
    {q : Int} (h0 : 0 ≤ q) (hq : NonnegQ inv)
    (h : dayStep inv d q = some inv2) : NonnegQ inv2 := by
  rw [dayStep_eq] at h
  by_cases hc : q ≤ avail inv d
  · rw [if_pos hc] at h
    cases h
    exact depleteFIFO_nonneg _ _ h0 (nonnegQ_filter _ hq)
  · rw [if_neg hc] at h
    cases h

theorem simStates_nonneg :
    ∀ (fs : List ForecastRecord) (inv : List InventoryBatch),
      NonnegQ inv → NonnegS fs →
      ∀ s ∈ simStates inv fs, NonnegQ s := by
  intro fs
  induction fs with
  | nil =>
    intro inv hq _ s hsmem
    simp only [simStates, List.mem_singleton] at hsmem
    exact hsmem ▸ hq
  | cons f fs ih =>
    intro inv hq hns s hsmem
    have h0 : 0 ≤ f.forecasted_sales := hns f (List.mem_cons_self _ _)
    have hns2 : NonnegS fs := fun r hr => hns r (List.mem_cons_of_mem _ hr)
    rw [simStates] at hsmem
    cases hstep : dayStep inv f.date f.forecasted_sales with
    | none =>
      rw [hstep] at hsmem
      simp only [List.mem_singleton] at hsmem
      exact hsmem ▸ hq
    | some inv2 =>
      rw [hstep] at hsmem
      rcases List.mem_cons.1 hsmem with rfl | hsmem2
      · exact hq
      · exact ih inv2 (dayStep_some_nonneg h0 hq hstep) hns2 s hsmem2

/-- C7: quantities stay non-negative at every step of the per-product
simulation; FIFO depletion preserves batch identity and expiry, floors a
fully consumed batch at exactly `0`, never increases a quantity, removes in
total exactly the day's demand; and a day whose demand exceeds the remaining
stock triggers no depletion at all (`dayStep` returns `none`). -/
theorem simulation_quantities_nonneg :
    (∀ (inv : List InventoryBatch) (fs : List ForecastRecord),
       NonnegQ inv → NonnegS fs →
       ∀ s ∈ simStates inv fs, ∀ b ∈ s, 0 ≤ b.quantity) ∧
    (∀ (inv : List InventoryBatch) (q : Int), 0 ≤ q → NonnegQ inv →
       List.Forall₂ (fun b b' : InventoryBatch =>
         b'.product_id = b.product_id ∧ b'.batch_id = b.batch_id ∧
         b'.expiry_date = b.expiry_date ∧ 0 ≤ b'.quantity ∧
         b'.quantity ≤ b.quantity) inv (depleteFIFO inv q)) ∧
    (∀ (inv : List InventoryBatch) (q : Int), 0 ≤ q → q ≤ sumQ inv →
       sumQ (depleteFIFO inv q) = sumQ inv - q) ∧
    (∀ (inv : List InventoryBatch) (d : Nat) (q : Int),
       sumQ (inv.filter (fun b => d ≤ b.expiry_date)) < q →
       dayStep inv d q = none) := by
  refine ⟨?_, ?_, ?_, ?_⟩
  · intro inv fs hq hns s hsmem
    exact simStates_nonneg fs inv hq hns s hsmem
  · intro inv q h0 hq
    exact depleteFIFO_forall₂ inv q h0 hq
  · intro inv q h0 hle
    exact depleteFIFO_sumQ inv q h0 hle
  · intro inv d q hlt
    rw [dayStep_eq]
    exact if_neg (not_le.2 hlt)

/-- Witness for C7: the state reached after the first simulated day of a
concrete run still has the non-negative quantity `7`. -/
theorem simulation_quantities_nonneg_witness :
    0 ≤ (InventoryBatch.mk "P" "B" 9 7).quantity :=
  simulation_quantities_nonneg.1 [⟨"P", "B", 9, 12⟩] [⟨"P", 1, 5⟩]
    (by simp only [NonnegQ]; decide) (by simp only [NonnegS]; decide)
    [⟨"P", "B", 9, 7⟩] (by decide) ⟨"P", "B", 9, 7⟩ (by decide)

/-! ### The spec wording agrees with the implementation loop -/

theorem specRemoveExpired_eq (inv : List InventoryBatch) (d : Nat) :
    specRemoveExpired inv d = inv.filter (fun b => d ≤ b.expiry_date) := by
  unfold specRemoveExpired
  apply List.filter_congr
  intro b _
  simp [decide_eq_decide, Nat.not_lt]

theorem specFIFODeplete_zero :
    ∀ (l : List InventoryBatch), NonnegQ l → specFIFODeplete l 0 = l := by
  intro l
  induction l with
  | nil => intro _; rfl
  | cons x rest ih =>
    intro hl
    have hx : 0 ≤ x.quantity := hl x (List.mem_cons_self _ _)
    have hrest : NonnegQ rest := fun c hc => hl c (List.mem_cons_of_mem _ hc)
    simp only [specFIFODeplete, min_eq_right hx, sub_zero, ih hrest]

theorem specFIFODeplete_eq :
    ∀ (l : List InventoryBatch) (q : Int), NonnegQ l → 0 ≤ q →
      specFIFODeplete l q = depleteFIFO l q := by
  intro l
  induction l with
  | nil => intro q _ _; rfl
  | cons x rest ih =>
    intro q hl h0
    have hx : 0 ≤ x.quantity := hl x (List.mem_cons_self _ _)
    have hrest : NonnegQ rest := fun c hc => hl c (List.mem_cons_of_mem _ hc)
    by_cases hc : q ≤ x.quantity
    · rw [depleteFIFO, if_pos hc]
      simp only [specFIFODeplete, min_eq_right hc, sub_self,
        specFIFODeplete_zero rest hrest]
    · rw [depleteFIFO, if_neg hc]
      have hxq : x.quantity ≤ q := le_of_not_le hc
      simp only [specFIFODeplete, min_eq_left hxq, sub_self,
        ih (q - x.quantity) hrest (by omega)]

theorem specCoversFirst_simLoop :
    ∀ (fs : List ForecastRecord) (inv : List InventoryBatch),
      NonnegQ inv → NonnegS fs → specCoversFirst inv fs (simLoop inv fs) := by
  intro fs
  induction fs with
  | nil => intro inv _ _; trivial
  | cons f fs ih =>
    intro inv hq hns
    have h0 : 0 ≤ f.forecasted_sales := hns f (List.mem_cons_self _ _)
    have hns2 : NonnegS fs := fun r hr => hns r (List.mem_cons_of_mem _ hr)
    by_cases hc : f.forecasted_sales ≤ avail inv f.date
    · have e1 : simLoop inv (f :: fs) =
          simLoop (depleteFIFO (inv.filter (fun b => f.date ≤ b.expiry_date))
            f.forecasted_sales) fs + 1 := by
        rw [simLoop, dayStep_eq, if_pos hc]
      rw [e1]
      show f.forecasted_sales ≤ sumQ (specRemoveExpired inv f.date) ∧
        specCoversFirst
          (specFIFODeplete (specRemoveExpired inv f.date) f.forecasted_sales)
          fs (simLoop (depleteFIFO
            (inv.filter (fun b => f.date ≤ b.expiry_date))
            f.forecasted_sales) fs)
      rw [specRemoveExpired_eq]
      refine ⟨hc, ?_⟩
      rw [specFIFODeplete_eq _ _ (nonnegQ_filter _ hq) h0]
      exact ih _ (depleteFIFO_nonneg _ _ h0 (nonnegQ_filter _ hq)) hns2
    · have e1 : simLoop inv (f :: fs) = 0 := by
        rw [simLoop, dayStep_eq, if_neg hc]
      rw [e1]
      trivial

theorem specCoversFirst_le_simLoop :
    ∀ (k : Nat) (fs : List ForecastRecord) (inv : List InventoryBatch),
      NonnegQ inv → NonnegS fs → specCoversFirst inv fs k →
      k ≤ simLoop inv fs := by
  intro k
  induction k with
  | zero => intro fs inv _ _ _; exact Nat.zero_le _
  | succ k ih =>
    intro fs inv hq hns hcov
    cases fs with
    | nil => exact absurd hcov (by simp [specCoversFirst])
    | cons f fs =>
      have h0 : 0 ≤ f.forecasted_sales := hns f (List.mem_cons_self _ _)
      have hns2 : NonnegS fs := fun r hr => hns r (List.mem_cons_of_mem _ hr)
      rcases hcov with ⟨h1, h2⟩
      rw [specRemoveExpired_eq] at h1 h2
      have hc : f.forecasted_sales ≤ avail inv f.date := h1
      rw [specFIFODeplete_eq _ _ (nonnegQ_filter _ hq) h0] at h2
      have e1 : simLoop inv (f :: fs) =
          simLoop (depleteFIFO (inv.filter (fun b => f.date ≤ b.expiry_date))
            f.forecasted_sales) fs + 1 := by
        rw [simLoop, dayStep_eq, if_pos hc]
      rw [e1]
      exact Nat.succ_le_succ
        (ih fs _ (depleteFIFO_nonneg _ _ h0 (nonnegQ_filter _ hq)) hns2 h2)

theorem sortByKey_ne_nil {k : α → Nat} {l : List α} (h : l ≠ []) :
    sortByKey k l ≠ [] := by
  intro hnil
  have hp := (sortByKey_perm k l).symm
  rw [hnil] at hp
  exact h hp.eq_nil

/-- C1: for a product with at least one forecast record and at least one
batch (after reference-date filtering these are the lists handed to
`_calculate_days_covered`), the computed `days_forward_coverage` is exactly
the length of the longest coverable initial run of the date-sorted forecast:
the spec-side predicate `specCoversFirst` holds at the computed value, and
no larger count satisfies it — so the first shortfall ends the count even if
later days could be covered again. -/
theorem dfc_equals_longest_coverable_run (pf : List ForecastRecord)
    (pb : List InventoryBatch) (hpf : pf ≠ []) (hpb : pb ≠ [])
    (hq : NonnegQ pb) (hs : NonnegS pf) :
    specCoversFirst (sortByKey (fun b => b.expiry_date) pb)
        (sortByKey (fun r => r.date) pf)
        ((calculate_days_covered pf pb none).1) ∧
      ∀ k, specCoversFirst (sortByKey (fun b => b.expiry_date) pb)
          (sortByKey (fun r => r.date) pf) k →
        k ≤ (calculate_days_covered pf pb none).1 := by
  have hq2 : NonnegQ (sortByKey (fun b => b.expiry_date) pb) :=
    nonnegQ_perm (sortByKey_perm _ _).symm hq
  have hs2 : NonnegS (sortByKey (fun r => r.date) pf) :=
    nonnegS_perm (sortByKey_perm _ _).symm hs
  have hfst : (calculate_days_covered pf pb none).1 =
      simLoop (sortByKey (fun b => b.expiry_date) pb)
        (sortByKey (fun r => r.date) pf) := by
    simp only [calculate_days_covered]
    rw [if_neg (by simp [List.isEmpty_iff, sortByKey_ne_nil hpb,
      sortByKey_ne_nil hpf] : ¬ _)]
  rw [hfst]
  constructor
  · exact specCoversFirst_simLoop _ _ hq2 hs2
  · intro k hk
    exact specCoversFirst_le_simLoop k _ _ hq2 hs2 hk

/-- Witness for C1: one day of a two-day forecast of 5 units is coverable by
a single batch of 8 units, and the computed coverage satisfies the spec-side
predicate at its own value. -/
theorem dfc_equals_longest_coverable_run_witness :
    specCoversFirst
      (sortByKey (fun b => b.expiry_date) [⟨"W", "B1", 5, 8⟩])
      (sortByKey (fun r => r.date) [⟨"W", 1, 5⟩, ⟨"W", 2, 5⟩])
      ((calculate_days_covered [⟨"W", 1, 5⟩, ⟨"W", 2, 5⟩]
        [⟨"W", "B1", 5, 8⟩] none).1) :=
  (dfc_equals_longest_coverable_run [⟨"W", 1, 5⟩, ⟨"W", 2, 5⟩]
    [⟨"W", "B1", 5, 8⟩] (by decide) (by decide)
    (by simp only [NonnegQ]; decide) (by simp only [NonnegS]; decide)).1

/-! ### Scenario B of the spec and the default reference date -/

/-- Counterexample for C2: on Scenario B the engine returns
`days_forward_coverage = 2`, not `1` — the batch expiring 2024-01-02 is
still available on 2024-01-02 itself (only `expiry_date < date` is removed),
so day 2 is also covered. -/
theorem scenarioB_coverage_is_not_one :
    calculate_dfc scenarioBForecast scenarioBInventory none =
      [⟨"P1", 2, 12, none⟩] ∧
    (1 : Nat) ∉ (calculate_dfc scenarioBForecast scenarioBInventory none).map
      (fun r => r.days_forward_coverage) := by decide

/-- C2 (amended): on Scenario B with a defaulted reference date,
`compute_coverage` returns `days_forward_coverage = 2` and
`total_inventory = 12` for product P1. -/
theorem scenarioB_coverage_two_total_twelve :
    (calculate_dfc scenarioBForecast scenarioBInventory none).map
      (fun r => (r.product_id, r.days_forward_coverage, r.total_inventory)) =
      [("P1", 2, 12)] := by decide

/-- Counterexample for C4: with reference date omitted and an empty forecast
the engine does not fail with a missing-reference-date error; every
comparison against the undefined reference date is false (pandas `NaT`) and
an empty coverage table is returned. -/
theorem empty_forecast_returns_empty_table :
    calculate_dfc [] [⟨"A", "B1", 5, 3⟩] none = [] := by decide

/-- C4 (amended): an omitted reference date with an empty forecast yields an
empty coverage table rather than a failure, and with a non-empty forecast
the omitted reference date defaults to the minimum forecast date (the result
equals the one for that date passed explicitly). -/
theorem default_reference_date_behavior :
    (∀ i : List InventoryBatch, calculate_dfc [] i none = []) ∧
    (∀ (f : List ForecastRecord) (i : List InventoryBatch) (m : Nat),
      (f.map (fun r => r.date)).min? = some m →
      calculate_dfc f i none = calculate_dfc f i (some m)) := by
  constructor
  · intro i
    simp [calculate_dfc, futureForecast, validInventory, refDate, geOpt,
      sortBy, uniqueFirst, uniqueFirstAux]
  · intro f i m hm
    unfold calculate_dfc futureForecast validInventory refDate
    rw [hm]

/-- Witness for C4 as amended: the default reference date of a concrete
two-record forecast behaves like explicitly passing its minimum date 2. -/
theorem default_reference_date_behavior_witness :
    calculate_dfc [⟨"A", 3, 1⟩, ⟨"A", 2, 1⟩] [⟨"A", "B", 9, 5⟩] none =
      calculate_dfc [⟨"A", 3, 1⟩, ⟨"A", 2, 1⟩] [⟨"A", "B", 9, 5⟩] (some 2) :=
  default_reference_date_behavior.2 [⟨"A", 3, 1⟩, ⟨"A", 2, 1⟩]
    [⟨"A", "B", 9, 5⟩] 2 (by decide)

/-! ### Which products get a coverage row -/

theorem rowFor_product_id (fut : List ForecastRecord)
    (val : List InventoryBatch) (pid : String) :
    (rowFor fut val pid).product_id = pid := by
  unfold rowFor
  by_cases h1 : (fut.filter (fun r => r.product_id == pid)).isEmpty <;>
    by_cases h2 : ((val.filter (fun b => b.product_id == pid))).isEmpty <;>
    simp [h1, h2]

theorem count_eq_ite_of_nodup [DecidableEq α] :
    ∀ {l : List α}, l.Nodup → ∀ (a : α),
      l.count a = if a ∈ l then 1 else 0 := by
  intro l
  induction l with
  | nil => intro _ a; simp
  | cons x xs ih =>
    intro h a
    rcases List.nodup_cons.1 h with ⟨hx, hxs⟩
    by_cases hax : a = x
    · subst hax
      rw [List.count_cons_self, List.count_eq_zero.2 hx]
      simp
    · rw [List.count_cons_of_ne hax, ih hxs a]
      by_cases hmem : a ∈ xs <;> simp [hmem, hax]

/-- Counterexample for C3: a product all of whose forecast records and
batches lie strictly before the reference date appears in both raw inputs
but receives no coverage row at all. -/
theorem stale_product_gets_no_row :
    calculate_dfc [⟨"A", 1, 5⟩] [⟨"A", "B1", 1, 3⟩] (some 10) = [] ∧
    "A" ∈ ([⟨"A", 1, 5⟩] : List ForecastRecord).map (fun r => r.product_id) ∧
    "A" ∈ ([⟨"A", "B1", 1, 3⟩] : List InventoryBatch).map
      (fun b => b.product_id) := by decide

/-- C3 (amended): `compute_coverage` emits exactly one row for every product
id that appears in the forecast restricted to dates on or after the
reference date, or in the inventory restricted to expiry dates on or after
the reference date — and no row for any other product id, in particular none
for a product whose records all lie strictly before the reference date. -/
theorem coverage_one_row_per_filtered_product (f : List ForecastRecord)
    (i : List InventoryBatch) (c : Option Nat) (pid : String) :
    ((calculate_dfc f i c).map (fun r => r.product_id)).count pid =
      if (∃ r ∈ f, r.product_id = pid ∧ geOpt r.date (refDate f c) = true) ∨
          (∃ b ∈ i, b.product_id = pid ∧
            geOpt b.expiry_date (refDate f c) = true)
      then 1 else 0 := by
  have h1 : (calculate_dfc f i c).map (fun r => r.product_id) =
      uniqueFirst ((futureForecast f c).map (fun r => r.product_id) ++
        (validInventory f i c).map (fun b => b.product_id)) := by
    simp only [calculate_dfc, List.map_map]
    rw [show ((fun r : CoverageResult => r.product_id) ∘
        rowFor (futureForecast f c) (validInventory f i c)) =
        fun pid2 => (rowFor (futureForecast f c) (validInventory f i c)
          pid2).product_id from rfl]
    calc (uniqueFirst ((futureForecast f c).map (fun r => r.product_id) ++
            (validInventory f i c).map (fun b => b.product_id))).map
          (fun pid2 => (rowFor (futureForecast f c)
            (validInventory f i c) pid2).product_id)
        = (uniqueFirst ((futureForecast f c).map (fun r => r.product_id) ++
            (validInventory f i c).map (fun b => b.product_id))).map id := by
          apply List.map_congr_left
          intro a _
          rw [rowFor_product_id]
          rfl
      _ = _ := List.map_id _
  rw [h1, count_eq_ite_of_nodup (uniqueFirst_nodup _) pid]
  apply if_congr _ rfl rfl
  rw [mem_uniqueFirst, List.mem_append]
  constructor
  · rintro (hf | hi)
    · rcases List.mem_map.1 hf with ⟨r, hrmem, rfl⟩
      have hrf := (sortBy_perm forecastLe _).mem_iff.1 hrmem
      rcases List.mem_filter.1 hrf with ⟨hrin, hrge⟩
      exact Or.inl ⟨r, hrin, rfl, hrge⟩
    · rcases List.mem_map.1 hi with ⟨b, hbmem, rfl⟩
      rcases List.mem_filter.1 hbmem with ⟨hbin, hbge⟩
      exact Or.inr ⟨b, hbin, rfl, hbge⟩
  · rintro (⟨r, hrin, rfl, hrge⟩ | ⟨b, hbin, rfl, hbge⟩)
    · refine Or.inl (List.mem_map.2 ⟨r, ?_, rfl⟩)
      exact (sortBy_perm forecastLe _).mem_iff.2 (List.mem_filter.2 ⟨hrin, hrge⟩)
    · exact Or.inr (List.mem_map.2 ⟨b, List.mem_filter.2 ⟨hbin, hbge⟩, rfl⟩)

/-! ### The total-inventory snapshot -/

theorem calculate_days_covered_none_snd (pf : List ForecastRecord)
    (pb : List InventoryBatch) :
    (calculate_days_covered pf pb none).2 = sumQ pb := by
  have h : (calculate_days_covered pf pb none).2 =
      sumQ (sortByKey (fun b => b.expiry_date) pb) := by
    simp only [calculate_days_covered]
    split <;> rfl
  rw [h]
  exact sumQ_perm (sortByKey_perm _ _)

theorem calculate_days_covered_some_snd (pf : List ForecastRecord)
    (pb : List InventoryBatch) (s : Nat) :
    (calculate_days_covered pf pb (some s)).2 =
      sumQ (pb.filter (fun b => s ≤ b.expiry_date)) := by
  have h : (calculate_days_covered pf pb (some s)).2 =
      sumQ (sortByKey (fun b => b.expiry_date)
        (pb.filter (fun b => s ≤ b.expiry_date))) := by
    simp only [calculate_days_covered]
    split <;> rfl
  rw [h]
  exact sumQ_perm (sortByKey_perm _ _)

/-- C5: for every product that runs the per-product simulation (both its
filtered forecast and filtered inventory are non-empty), the reported
`total_inventory` is the sum of the quantities of that product's batches
whose expiry date is on or after the reference date — a snapshot taken
before any depletion, so it does not depend on what the simulation
consumes. -/
theorem total_inventory_is_reference_snapshot (f : List ForecastRecord)
    (i : List InventoryBatch) (c : Option Nat) (r : CoverageResult)
    (hr : r ∈ calculate_dfc f i c)
    (hpf : (futureForecast f c).filter
      (fun x => x.product_id == r.product_id) ≠ [])
    (hpb : (validInventory f i c).filter
      (fun b => b.product_id == r.product_id) ≠ []) :
    r.total_inventory = sumQ (i.filter (fun b =>
      b.product_id == r.product_id &&
        geOpt b.expiry_date (refDate f c))) := by
  simp only [calculate_dfc] at hr
  rcases List.mem_map.1 hr with ⟨pid, _, hreq⟩
  subst hreq
  rw [rowFor_product_id] at hpf hpb
  unfold rowFor
  rw [if_neg (by simp [List.isEmpty_iff, hpf] : ¬ _)]
  rw [if_neg (by simp [List.isEmpty_iff, hpb] : ¬ _)]
  show (calculate_days_covered _ _ none).2 = _
  rw [calculate_days_covered_none_snd]
  unfold validInventory
  rw [List.filter_filter]

/-- Witness for C5: the snapshot equation at a one-product instance whose
simulation runs and consumes 5 of the 7 units. -/
theorem total_inventory_is_reference_snapshot_witness :
    (CoverageResult.mk "A" 1 7 none).total_inventory =
      sumQ (([⟨"A", "B1", 2, 7⟩] : List InventoryBatch).filter (fun b =>
        b.product_id == (CoverageResult.mk "A" 1 7 none).product_id &&
          geOpt b.expiry_date (refDate [⟨"A", 1, 5⟩] none))) :=
  total_inventory_is_reference_snapshot [⟨"A", 1, 5⟩] [⟨"A", "B1", 2, 7⟩]
    none (CoverageResult.mk "A" 1 7 none) (by decide) (by decide) (by decide)

/-! ### The per-product time series -/

theorem pairwise_lt_uniqueFirst {l : List Nat}
    (h : List.Pairwise (fun a b => a ≤ b) l) :
    List.Pairwise (fun a b => a < b) (uniqueFirst l) := by
  have hle : List.Pairwise (fun a b : Nat => a ≤ b) (uniqueFirst l) :=
    List.Pairwise.sublist (uniqueFirst_sublist l) h
  have hne : List.Pairwise (fun a b : Nat => a ≠ b) (uniqueFirst l) :=
    uniqueFirst_nodup l
  exact (hle.and hne).imp (fun hab => lt_of_le_of_ne hab.1 hab.2)

/-- Counterexample for C9: a product with a forecast record but no inventory
batch yields an empty time series, not one row per distinct forecast date. -/
theorem forecast_only_product_empty_time_series :
    calculate_dfc_over_time [⟨"A", 1, 5⟩] [] "A" = [] ∧
    ([⟨"A", 1, 5⟩] : List ForecastRecord).filter
      (fun r => r.product_id == "A") ≠ [] := by decide

/-- C9 (amended): the time series is empty whenever the product is missing
from either input (no exception); when the product has both forecast records
and inventory batches, there is exactly one row per distinct forecast date,
in strictly ascending date order, and each row carries the result of
`_calculate_days_covered` anchored at that row's date. -/
theorem over_time_one_row_per_date (f : List ForecastRecord)
    (i : List InventoryBatch) (pid : String) :
    ((f.filter (fun r => r.product_id == pid) = [] ∨
        i.filter (fun b => b.product_id == pid) = []) →
      calculate_dfc_over_time f i pid = []) ∧
    (f.filter (fun r => r.product_id == pid) ≠ [] →
      i.filter (fun b => b.product_id == pid) ≠ [] →
      DatesStrictAscending (calculate_dfc_over_time f i pid) ∧
      (∀ d, d ∈ (calculate_dfc_over_time f i pid).map (fun r => r.date) ↔
        d ∈ (f.filter (fun r => r.product_id == pid)).map (fun r => r.date)) ∧
      (∀ r ∈ calculate_dfc_over_time f i pid,
        r.days_forward_coverage = (calculate_days_covered
          (sortByKey (fun x => x.date)
            (f.filter (fun x => x.product_id == pid)))
          (i.filter (fun b => b.product_id == pid)) (some r.date)).1 ∧
        r.total_inventory = (calculate_days_covered
          (sortByKey (fun x => x.date)
            (f.filter (fun x => x.product_id == pid)))
          (i.filter (fun b => b.product_id == pid)) (some r.date)).2)) := by
  constructor
  · intro hempty
    simp only [calculate_dfc_over_time]
    rw [if_pos]
    rcases hempty with h | h <;> simp [List.isEmpty_iff, h]
  · intro hpf hpb
    have hrows : calculate_dfc_over_time f i pid =
        (uniqueFirst ((sortByKey (fun x : ForecastRecord => x.date)
          (f.filter (fun x => x.product_id == pid))).map
            (fun x => x.date))).map (fun d =>
          { date := d,
            days_forward_coverage := (calculate_days_covered
              (sortByKey (fun x : ForecastRecord => x.date)
                (f.filter (fun x => x.product_id == pid)))
              (i.filter (fun b => b.product_id == pid)) (some d)).1,
            total_inventory := (calculate_days_covered
              (sortByKey (fun x : ForecastRecord => x.date)
                (f.filter (fun x => x.product_id == pid)))
              (i.filter (fun b => b.product_id == pid)) (some d)).2 }) := by
      simp only [calculate_dfc_over_time]
      rw [if_neg (by simp [List.isEmpty_iff, hpf, hpb] : ¬ _)]
    have hdates : (calculate_dfc_over_time f i pid).map (fun r => r.date) =
        uniqueFirst ((sortByKey (fun x : ForecastRecord => x.date)
          (f.filter (fun x => x.product_id == pid))).map (fun x => x.date)) := by
      rw [hrows, List.map_map]
      exact List.map_id _
    have hsorted : List.Pairwise (fun a b : Nat => a ≤ b)
        ((sortByKey (fun x : ForecastRecord => x.date)
          (f.filter (fun x => x.product_id == pid))).map (fun x => x.date)) :=
      List.pairwise_map.2 (pairwise_sortByKey _ _)
    refine ⟨?_, ?_, ?_⟩
    · unfold DatesStrictAscending
      rw [← List.pairwise_map (f := fun r : OverTimeRow => r.date), hdates]
      exact pairwise_lt_uniqueFirst hsorted
    · intro d
      rw [hdates, mem_uniqueFirst]
      constructor
      · intro hd
        rcases List.mem_map.1 hd with ⟨x, hx, rfl⟩
        exact List.mem_map.2 ⟨x, (sortByKey_perm _ _).mem_iff.1 hx, rfl⟩
      · intro hd
        rcases List.mem_map.1 hd with ⟨x, hx, rfl⟩
        exact List.mem_map.2 ⟨x, (sortByKey_perm _ _).mem_iff.2 hx, rfl⟩
    · intro r hrmem
      rw [hrows] at hrmem
      rcases List.mem_map.1 hrmem with ⟨d, _, rfl⟩
      exact ⟨rfl, rfl⟩

/-- Witness for C9 as amended: the two anchor dates of a concrete two-day
forecast give a strictly ascending time series. -/
theorem over_time_one_row_per_date_witness :
    DatesStrictAscending
      (calculate_dfc_over_time [⟨"A", 1, 5⟩, ⟨"A", 3, 5⟩]
        [⟨"A", "B1", 2, 4⟩] "A") :=
  ((over_time_one_row_per_date [⟨"A", 1, 5⟩, ⟨"A", 3, 5⟩]
    [⟨"A", "B1", 2, 4⟩] "A").2 (by decide) (by decide)).1

/-- C10: along the time series of any product, `total_inventory` never
increases as the anchor date advances: each anchor's snapshot is recomputed
from the unmutated batches restricted to expiry on or after that anchor, and
with non-negative quantities a later anchor can only see fewer batches. -/
theorem over_time_total_nonincreasing (f : List ForecastRecord)
    (i : List InventoryBatch) (pid : String) (hq : NonnegQ i) :
    TotalNonincreasing (calculate_dfc_over_time f i pid) := by
  have hqp : NonnegQ (i.filter (fun b => b.product_id == pid)) :=
    nonnegQ_filter _ hq
  unfold TotalNonincreasing
  simp only [calculate_dfc_over_time]
  by_cases hc : ((f.filter (fun r => r.product_id == pid)).isEmpty ||
      (i.filter (fun b => b.product_id == pid)).isEmpty) = true
  · rw [if_pos hc]
    exact List.Pairwise.nil
  · rw [if_neg hc]
    apply List.pairwise_map.2
    have hsorted : List.Pairwise (fun a b : Nat => a ≤ b)
        (uniqueFirst ((sortByKey (fun x : ForecastRecord => x.date)
          (f.filter (fun x => x.product_id == pid))).map (fun x => x.date))) :=
      List.Pairwise.sublist (uniqueFirst_sublist _)
        (List.pairwise_map.2 (pairwise_sortByKey _ _))
    refine hsorted.imp ?_
    intro d1 d2 hle
    show (calculate_days_covered _ _ (some d2)).2 ≤
      (calculate_days_covered _ _ (some d1)).2
    rw [calculate_days_covered_some_snd, calculate_days_covered_some_snd]
    apply sumQ_sublist_le _ (nonnegQ_filter _ hqp)
    apply List.monotone_filter_right
    intro b hb
    simp only [decide_eq_true_eq] at hb ⊢
    omega

/-- Witness for C10: on a concrete two-anchor series the totals 4 and 0 are
non-increasing. -/
theorem over_time_total_nonincreasing_witness :
    TotalNonincreasing
      (calculate_dfc_over_time [⟨"A", 1, 5⟩, ⟨"A", 3, 5⟩]
        [⟨"A", "B1", 2, 4⟩] "A") :=
  over_time_total_nonincreasing [⟨"A", 1, 5⟩, ⟨"A", 3, 5⟩]
    [⟨"A", "B1", 2, 4⟩] "A" (by simp only [NonnegQ]; decide)
